import Mathlib

/-!
A shallow embedding of the version-matrix engine (`VersionMatrix.tsx`):
the endpoint extractor (`parseEndpoints`), the version fetcher
(`fetchVersion` plus the per-cell error classification in
`handleRefresh`), the full-load routine (`load`), the selective-refresh
state updates, and the localStorage cache snapshot.

Modelling conventions:
- JS values appearing in entity metadata are embedded as `JsonVal`;
  JS objects are association lists in insertion order, and `map[k] = v`
  is `setEntry` (replace in place when the key exists, append otherwise).
- JS exceptions are `JsError` (name, message); functions that can throw
  return `Except JsError _`.
- `JSON.parse` is embedded as `jsonParse`, an executable recursive-descent
  parser for the JSON fragment relevant here (null, booleans, integer
  numbers, strings with the common escapes, arrays, objects); inputs
  outside that fragment parse to `none` (= `JSON.parse` throwing).
- `localStorage` plus `JSON.stringify`/`JSON.parse` round-tripping of the
  cache is embedded as `CacheStore`: the stored snapshot is kept
  structurally, with `corrupt`/`missing` states for the failure modes.
- The browser's network is an oracle `NetOutcome` consumed by
  `fetchVersion`; timers (the 1 s changed-cell window) are modelled as a
  queue of pending clear events executed by `runClear`.
-/

namespace DevPortal

/-- A JSON-like JS runtime value, as stored in entity metadata annotations. -/
inductive JsonVal where
  | str : String → JsonVal
  | num : Int → JsonVal
  | bool : Bool → JsonVal
  | null : JsonVal
  | obj : List (String × JsonVal) → JsonVal
  | arr : List JsonVal → JsonVal

/-- A JS `Error` value: its `name` and `message`. -/
structure JsError where
  name : String
  message : String
deriving DecidableEq, Repr

/-- JS falsiness for the `JsonVal` fragment (`'' , 0, false, null` are falsy). -/
def jsFalsy : JsonVal → Bool
  | .str s => s = ""
  | .num n => n = 0
  | .bool b => !b
  | .null => true
  | .obj _ => false
  | .arr _ => false

/-- JS test `v && typeof v === 'object'`: objects and arrays (null excluded). -/
def jsIsObject : JsonVal → Bool
  | .obj _ => true
  | .arr _ => true
  | _ => false

/-- Entries of a value under `Object.entries`: fields of an object in
insertion order, index/value pairs of an array, `[]` otherwise. -/
def objEntries : JsonVal → List (String × JsonVal)
  | .obj fs => fs
  | .arr xs => (xs.enum).map (fun p => (toString p.1, p.2))
  | _ => []

/-- Association-list lookup (JS property read on a string-keyed object). -/
def alGet {β : Type} : List (String × β) → String → Option β
  | [], _ => none
  | (k, v) :: rest, key => if k = key then some v else alGet rest key

/-- JS `map[k] = v` on a string-keyed object: replace in place when the key
is present, append otherwise (insertion-order semantics). -/
def setEntry {β : Type} (m : List (String × β)) (k : String) (v : β) : List (String × β) :=
  if m.any (fun p => p.1 = k) then
    m.map (fun p => if p.1 = k then (k, v) else p)
  else
    m ++ [(k, v)]

/-- JS `Set.add` on a set kept in insertion order. -/
def insertIfAbsent (l : List String) (x : String) : List String :=
  if x ∈ l then l else l ++ [x]

/-- An environment-name → URL map (`type EndpointMap = Record<string, string>`). -/
abbrev EndpointMap := List (String × String)

/-- JS string primitives are embedded at the character-list level (so that
every definition evaluates by kernel reduction); `String.mk`/`.data`
mediate. JS whitespace is embedded as `Char.isWhitespace` (space, tab,
CR, LF — the characters occurring in this system's data). Trim both ends
of a string (JS `.trim()`). -/
def jsTrim (s : String) : String :=
  String.mk (((s.data.dropWhile Char.isWhitespace).reverse.dropWhile Char.isWhitespace).reverse)

/-- Uppercase a string (JS `.toUpperCase()` on the basic-latin range). -/
def jsToUpper (s : String) : String :=
  String.mk (s.data.map Char.toUpper)

/-- Test whether a string starts with another (JS `.startsWith(p)`). -/
def jsStartsWith (s p : String) : Bool :=
  p.data.isPrefixOf s.data

/-- Drop the first `n` characters of a string. -/
def jsDropChars (s : String) (n : Nat) : String :=
  String.mk (s.data.drop n)

/-- Split a string on a separator character, keeping empty segments
(JS `.split(sep)` for the one-character separators used here). -/
def charSplit (sep : Char) (s : String) : List String :=
  let rec go : List Char → List Char → List String
    | [], cur => [String.mk cur.reverse]
    | c :: rest, cur =>
      if c = sep then String.mk cur.reverse :: go rest [] else go rest (c :: cur)
  go s.data []

/-- Helper `cleanUrl` from `parseEndpoints`: trim, then drop trailing
commas (`value.trim().replace(/,+$/, '')`). -/
def cleanUrl (value : String) : String :=
  String.mk (((jsTrim value).data.reverse.dropWhile (fun c => c = ',')).reverse)

/-- JSON whitespace as accepted by `JSON.parse`. -/
def isJsonWs (c : Char) : Bool :=
  c = ' ' || c = '\t' || c = '\n' || c = '\r'

/-- Skip JSON whitespace. -/
def skipWs (cs : List Char) : List Char :=
  cs.dropWhile isJsonWs

/-- Decode the characters of a JSON string after the opening quote,
handling the escapes `\" \\ \/ \n \t \r \b \f`; fails on `\u` and other
escapes (those inputs are avoided in every concrete statement below). -/
def parseStrChars : List Char → List Char → Option (String × List Char)
  | [], _ => none
  | '"' :: rest, acc => some (String.mk acc.reverse, rest)
  | '\\' :: e :: rest, acc =>
    match e with
    | '"' => parseStrChars rest ('"' :: acc)
    | '\\' => parseStrChars rest ('\\' :: acc)
    | '/' => parseStrChars rest ('/' :: acc)
    | 'n' => parseStrChars rest ('\n' :: acc)
    | 't' => parseStrChars rest ('\t' :: acc)
    | 'r' => parseStrChars rest ('\r' :: acc)
    | 'b' => parseStrChars rest ('\x08' :: acc)
    | 'f' => parseStrChars rest ('\x0c' :: acc)
    | _ => none
  | c :: rest, acc => parseStrChars rest (c :: acc)

/-- Digits of a nonnegative JSON integer, most significant first. -/
def digitsToNat (ds : List Char) : Nat :=
  ds.foldl (fun n d => n * 10 + (d.toNat - 48)) 0

/-- Parse a JSON number restricted to integers (a `.`, `e` or `E`
continuation makes the parse fail; such inputs are avoided below). -/
def parseNum (cs : List Char) : Option (JsonVal × List Char) :=
  let (sign, cs') := match cs with
    | '-' :: rest => (true, rest)
    | _ => (false, cs)
  let ds := cs'.takeWhile Char.isDigit
  let rest := cs'.dropWhile Char.isDigit
  if ds = [] then none
  else match rest with
    | '.' :: _ => none
    | 'e' :: _ => none
    | 'E' :: _ => none
    | _ =>
      let n : Int := Int.ofNat (digitsToNat ds)
      some (.num (if sign then -n else n), rest)

mutual

/-- Recursive-descent JSON value parser (fuel-indexed). -/
def parseVal : Nat → List Char → Option (JsonVal × List Char)
  | 0, _ => none
  | fuel + 1, cs =>
    match skipWs cs with
    | 'n' :: 'u' :: 'l' :: 'l' :: rest => some (.null, rest)
    | 't' :: 'r' :: 'u' :: 'e' :: rest => some (.bool true, rest)
    | 'f' :: 'a' :: 'l' :: 's' :: 'e' :: rest => some (.bool false, rest)
    | '"' :: rest => (parseStrChars rest []).map (fun p => (.str p.1, p.2))
    | '[' :: rest =>
      (match skipWs rest with
       | ']' :: rest' => some (.arr [], rest')
       | cs' => parseArrItems fuel cs' [])
    | '{' :: rest =>
      (match skipWs rest with
       | '}' :: rest' => some (.obj [], rest')
       | cs' => parseObjItems fuel cs' [])
    | cs' => parseNum cs'

/-- Items of a JSON array after `[` (when the array is nonempty). -/
def parseArrItems : Nat → List Char → List JsonVal → Option (JsonVal × List Char)
  | 0, _, _ => none
  | fuel + 1, cs, acc =>
    match parseVal fuel cs with
    | none => none
    | some (v, rest) =>
      match skipWs rest with
      | ',' :: rest' => parseArrItems fuel rest' (v :: acc)
      | ']' :: rest' => some (.arr (v :: acc).reverse, rest')
      | _ => none

/-- Members of a JSON object after `{` (when the object is nonempty). -/
def parseObjItems : Nat → List Char → List (String × JsonVal) →
    Option (JsonVal × List Char)
  | 0, _, _ => none
  | fuel + 1, cs, acc =>
    match skipWs cs with
    | '"' :: rest =>
      match parseStrChars rest [] with
      | none => none
      | some (key, rest₁) =>
        match skipWs rest₁ with
        | ':' :: rest₂ =>
          match parseVal fuel rest₂ with
          | none => none
          | some (v, rest₃) =>
            match skipWs rest₃ with
            | ',' :: rest₄ => parseObjItems fuel rest₄ ((key, v) :: acc)
            | '}' :: rest₄ => some (.obj ((key, v) :: acc).reverse, rest₄)
            | _ => none
        | _ => none
    | _ => none

end

/-- Embedding of `JSON.parse`: parse a complete JSON document (trailing
whitespace allowed); `none` stands for `JSON.parse` throwing a
`SyntaxError`. -/
def jsonParse (s : String) : Option JsonVal :=
  match parseVal (s.length + 1) s.toList with
  | some (v, rest) => if skipWs rest = [] then some v else none
  | none => none

/-- The per-environment annotation key pattern (`is3-devportal/version-<env>`). -/
def perEnvKeyStart : String := "is3-devportal/version-"

/-- The structured legacy annotation key. -/
def versionsKey : String := "is3-devportal/versions"

/-- The flat legacy annotation key (`ENDPOINTS_ANNOTATION`). Note that it
itself starts with the per-environment pattern `is3-devportal/version-`. -/
def endpointsKey : String := "is3-devportal/version-endpoints"

/-- One step of the first cascade stage: an annotation key starting with
`is3-devportal/version-` whose value is a string contributes
`suffix.toUpperCase() → value.trim()`. -/
def perEnvStep (m : EndpointMap) (kv : String × JsonVal) : EndpointMap :=
  match kv with
  | (k, .str v) =>
    if jsStartsWith k perEnvKeyStart then
      setEntry m (jsToUpper (jsDropChars k perEnvKeyStart.length)) (jsTrim v)
    else m
  | _ => m

/-- First cascade stage of `parseEndpoints`, over all annotations. -/
def perEnvMap (annotations : List (String × JsonVal)) : EndpointMap :=
  annotations.foldl perEnvStep []

/-- One step of the legacy-entry collection: a string-valued entry
contributes `env → cleanUrl url`. -/
def entStep (m : EndpointMap) (kv : String × JsonVal) : EndpointMap :=
  match kv with
  | (env, .str url) => setEntry m env (cleanUrl url)
  | _ => m

/-- Collect `env → cleanUrl url` from entries whose value is a string
(the body shared by the object, array and JSON-string legacy branches). -/
def entriesToMap (m : EndpointMap) (fs : List (String × JsonVal)) : EndpointMap :=
  fs.foldl entStep m

/-- Legacy branch: `is3-devportal/versions` as an object (a YAML map). -/
def objBranch : Option JsonVal → EndpointMap
  | some (.obj fs) => entriesToMap [] fs
  | _ => []

/-- One step of the array legacy branch: a truthy object element
contributes its string-valued entries. -/
def arrStep (m : EndpointMap) (entry : JsonVal) : EndpointMap :=
  if jsIsObject entry then entriesToMap m (objEntries entry) else m

/-- Legacy branch: `is3-devportal/versions` as an array whose truthy object
elements each contribute their string-valued entries. -/
def arrBranch : Option JsonVal → EndpointMap
  | some (.arr xs) => xs.foldl arrStep []
  | _ => []

/-- Legacy branch: `is3-devportal/versions` as a string parsed with
`JSON.parse`; entries are collected when the parse yields a truthy
`object` (a JS object or array). -/
def jsonBranch : Option JsonVal → EndpointMap
  | some (.str s) =>
    (match jsonParse s with
     | some v => if jsIsObject v then entriesToMap [] (objEntries v) else []
     | none => [])
  | _ => []

/-- A single or double quote character. -/
def isQuote (c : Char) : Bool :=
  c = Char.ofNat 39 || c = '"'

/-- Strip one leading and one trailing single or double quote
(`urlRaw.replace(/^['"]|['"]$/g, '')`). -/
def stripQuotes (s : String) : String :=
  let l₁ := match s.data with
    | c :: rest => if isQuote c then rest else s.data
    | [] => []
  String.mk (match l₁.getLast? with
    | some c => if isQuote c then l₁.dropLast else l₁
    | none => l₁)

/-- Leading run of dashes and whitespace removed
(`line.replace(/^[-\s]+/, '')`). -/
def lineClean (s : String) : String :=
  String.mk (s.data.dropWhile (fun c => c = '-' || c.isWhitespace))

/-- JS `cleaned.split(/:\s*/)`: segments separated by a colon followed by
a greedy whitespace run. The boolean marks "currently consuming the
whitespace run right after a colon". -/
def splitColonWs : List Char → List Char → Bool → List String
  | [], cur, _ => [String.mk cur.reverse]
  | c :: rest, cur, skip =>
    if skip && c.isWhitespace then splitColonWs rest cur true
    else if c = ':' then String.mk cur.reverse :: splitColonWs rest [] true
    else splitColonWs rest (c :: cur) false

/-- Legacy branch: `is3-devportal/versions` as a YAML-ish multi-line
string, lines of the form `[-] ENV: URL` (the `split(/:\s*/, 2)` keeps
only the first two segments). -/
def linesBranch : Option JsonVal → EndpointMap
  | some (.str s) =>
    let yamlLines := ((charSplit '\n' s).map jsTrim).filter
      (fun line => line ≠ "" && !jsStartsWith line "#")
    yamlLines.foldl
      (fun m line =>
        let cleaned := lineClean line
        match (splitColonWs cleaned.data [] false).take 2 with
        | [envRaw, urlRaw] =>
          if envRaw ≠ "" && urlRaw ≠ "" then
            setEntry m (jsTrim envRaw) (cleanUrl (stripQuotes urlRaw))
          else m
        | _ => m)
      []
  | _ => []

/-- Flat legacy parsing of comma-separated `ENV=url` pairs
(`legacyAnnotation.split(',')`, each pair split on `=`, both sides
trimmed, empty sides skipped). -/
def flatParse (s : String) : EndpointMap :=
  (charSplit ',' s).foldl
    (fun m pair =>
      match (charSplit '=' pair).map jsTrim with
      | env :: url :: _ =>
        if env ≠ "" && url ≠ "" then setEntry m env url else m
      | _ => m)
    []

/-- Final stage of `parseEndpoints`: the flat legacy annotation. A falsy
value returns the empty map; a truthy string is split on commas; calling
`.split` on a truthy non-string value throws a `TypeError`. -/
def legacyBranch (annotations : List (String × JsonVal)) : Except JsError EndpointMap :=
  match alGet annotations endpointsKey with
  | none => .ok []
  | some v =>
    if jsFalsy v then .ok []
    else match v with
      | .str s => .ok (flatParse s)
      | _ => .error ⟨"TypeError", "legacyAnnotation.split is not a function"⟩

/-- Extractor `parseEndpoints(entity)`: the ordered format cascade over
the entity's annotations, stopping at the first stage that yields at
least one entry.
Faithful to the source: whenever an earlier stage yields entries it
returns, so each later stage starts from an empty accumulator. -/
def parseEndpoints (annotations : List (String × JsonVal)) : Except JsError EndpointMap :=
  if perEnvMap annotations ≠ [] then .ok (perEnvMap annotations) else
  if objBranch (alGet annotations versionsKey) ≠ [] then
    .ok (objBranch (alGet annotations versionsKey)) else
  if arrBranch (alGet annotations versionsKey) ≠ [] then
    .ok (arrBranch (alGet annotations versionsKey)) else
  if jsonBranch (alGet annotations versionsKey) ≠ [] then
    .ok (jsonBranch (alGet annotations versionsKey)) else
  if linesBranch (alGet annotations versionsKey) ≠ [] then
    .ok (linesBranch (alGet annotations versionsKey)) else
  legacyBranch annotations

/-- The outcome the browser network delivers for one `fetch(url)` call:
a response with a status and text body, an abort (the 10 s timer or the
external signal fired), or another transport-level failure (DNS,
connection refused, protocol error) surfacing as a thrown error. -/
inductive NetOutcome where
  | response (status : Nat) (body : String)
  | aborted
  | transportFailure (e : JsError)

/-- Test `res.ok`: the status is in the 2xx range (`[200, 300)`). -/
def resOk (status : Nat) : Bool :=
  200 ≤ status && status < 300

/-- Fetcher `fetchVersion(url, signal?, timeoutMs)`. `preAborted` is
`signal.aborted` on entry (then it throws `TIMEOUT` without issuing a
request); otherwise the oracle `outcome` is what the issued request
produces. A 2xx response yields the trimmed body; a non-2xx response
throws `HTTP <status>`; an abort (`AbortError`) is remapped to
`TIMEOUT`; any other error is rethrown unchanged. -/
def fetchVersion (preAborted : Bool) (outcome : NetOutcome) : Except JsError String :=
  if preAborted then .error ⟨"Error", "TIMEOUT"⟩
  else match outcome with
    | .response status body =>
      if resOk status then .ok (jsTrim body)
      else .error ⟨"Error", "HTTP " ++ toString status⟩
    | .aborted => .error ⟨"Error", "TIMEOUT"⟩
    | .transportFailure e =>
      if e.name = "AbortError" then .error ⟨"Error", "TIMEOUT"⟩ else .error e

/-- The `catch` arm of `handleRefresh`: map a thrown error to the
per-cell sentinel (`TIMEOUT`, the literal `HTTP <code>` message, or
`N/C` for everything else). -/
def classifyErr (e : JsError) : String :=
  if e.message = "TIMEOUT" then "TIMEOUT"
  else if jsStartsWith e.message "HTTP " then e.message
  else "N/C"

/-- The string written into the cell when a fetch settles: the version
value on success, the classified sentinel on failure. -/
def resolvedCell (r : Except JsError String) : String :=
  match r with
  | .ok v => v
  | .error e => classifyErr e

/-- One component's persisted versions: environment → cell string. -/
abbrev VersionsMap := List (String × String)

/-- The `version-matrix-cache` localStorage slot. `missing` is an absent
key, `corrupt` a value `JSON.parse` rejects, and `stored d` a snapshot
(the JSON stringify/parse round-trip of the structured data is embedded
as the identity on `d`). -/
inductive CacheStore where
  | missing
  | corrupt
  | stored (d : List (String × VersionsMap))
deriving DecidableEq

/-- Reader `loadCachedVersions()`: read the slot, treating a missing or
corrupt value as the empty snapshot. -/
def loadCachedVersions : CacheStore → List (String × VersionsMap)
  | .missing => []
  | .corrupt => []
  | .stored d => d

/-- One row of the matrix (`type ComponentRow`). -/
structure ComponentRow where
  name : String
  title : Option String
  description : Option String
  nspace : String
  system : Option String
  endpoints : EndpointMap
  versions : VersionsMap
deriving DecidableEq

/-- One step of the snapshot construction: a row with a nonempty versions
map contributes `row.name → row.versions`. -/
def cacheStep (c : List (String × VersionsMap)) (r : ComponentRow) :
    List (String × VersionsMap) :=
  if r.versions ≠ ([] : VersionsMap) then setEntry c r.name r.versions else c

/-- The snapshot `saveCachedVersions` builds: every row with a nonempty
versions map contributes `row.name → row.versions`. -/
def cacheOf (rows : List ComponentRow) : List (String × VersionsMap) :=
  rows.foldl cacheStep []

/-- Writer `saveCachedVersions(rows)`: overwrite the slot with the
snapshot of `rows` (write failures are swallowed and not modelled
further). -/
def saveCachedVersions (rows : List ComponentRow) : CacheStore :=
  .stored (cacheOf rows)

/-- A catalog entity as the engine reads it: metadata identity fields and
the annotation mapping, plus `spec.system`. -/
structure Entity where
  name : String
  title : Option String := none
  description : Option String := none
  nspace : Option String := none
  annotations : List (String × JsonVal) := []
  system : Option String := none

/-- The fixed default environment set (`DEFAULT_ENVIRONMENTS`). -/
def DEFAULT_ENVIRONMENTS : List String := ["CONSO", "INT", "PRE", "PRO"]

/-- What `load` publishes: the environment list and the row set. -/
structure LoadResult where
  environments : List String
  rows : List ComponentRow
deriving DecidableEq

/-- Row construction inside `load`: identity copied from the entity
(`namespace || 'default'`), versions seeded from the cache snapshot
(`cachedVersions[name] || {}`). -/
def mkRow (e : Entity) (endpoints : EndpointMap)
    (cached : List (String × VersionsMap)) : ComponentRow :=
  { name := e.name
    title := e.title
    description := e.description
    nspace := match e.nspace with
      | some s => if s = "" then "default" else s
      | none => "default"
    system := e.system
    endpoints := endpoints
    versions := (alGet cached e.name).getD [] }

/-- The row-name ordering used by `preparedRows.sort((a, b) =>
a.name.localeCompare(b.name))`, embedded as the lexicographic order on
names; the JS sort (stable, by this comparator) is embedded as a stable
insertion sort by this relation. -/
def rowR (a b : ComponentRow) : Prop :=
  a.name ≤ b.name

instance : DecidableRel rowR := fun a b =>
  inferInstanceAs (Decidable (a.name ≤ b.name))

instance : IsTotal ComponentRow rowR :=
  ⟨fun a b => le_total a.name b.name⟩

instance : IsTrans ComponentRow rowR :=
  ⟨fun _ _ _ h₁ h₂ => le_trans h₁ h₂⟩

/-- One entity's contribution to the load fold: extract endpoints (a
throw aborts the whole load), skip components with an empty map, union
environment names, append the cache-seeded row. -/
def loadStep (cached : List (String × VersionsMap))
    (acc : List String × List ComponentRow) (e : Entity) :
    Except JsError (List String × List ComponentRow) :=
  match parseEndpoints e.annotations with
  | .error err => .error err
  | .ok endpoints =>
    if endpoints = ([] : EndpointMap) then .ok acc
    else
      .ok (endpoints.foldl (fun envs kv => insertIfAbsent envs kv.1) acc.1,
           acc.2 ++ [mkRow e endpoints cached])

/-- Full load `load()`: read the cache once, run the extractor over every
entity, drop components with an empty endpoint map, union discovered
environment names into the default set, seed versions from the cache,
sort rows by name, and publish — without initiating any fetch (the
source's `load` makes no network call; fetches happen only in
`handleRefresh`). -/
def load (store : CacheStore) (entities : List Entity) : Except JsError LoadResult :=
  match entities.foldlM (loadStep (loadCachedVersions store)) (DEFAULT_ENVIRONMENTS, []) with
  | .error e => .error e
  | .ok (envs, rows) => .ok ⟨envs, rows.insertionSort rowR⟩

/-- The component state `handleRefresh` and the resolution closures touch:
the row set, the refreshing tickets, the transient changed-cell marks with
their pending 1 s clear timers, and the cache slot. -/
structure MatrixState where
  allRows : List ComponentRow
  refreshing : List String
  changedCells : List String
  pendingClears : List String
  store : CacheStore
deriving DecidableEq

/-- Transient mark `markCellAsChanged`: add the `name-env` key to the
changed set and schedule its 1 s clear. -/
def markCellAsChanged (st : MatrixState) (rowName env : String) : MatrixState :=
  { st with
    changedCells := insertIfAbsent st.changedCells (rowName ++ "-" ++ env)
    pendingClears := st.pendingClears ++ [rowName ++ "-" ++ env] }

/-- The scheduled clear firing: remove the key from the changed set and
consume one pending timer. -/
def runClear (st : MatrixState) (key : String) : MatrixState :=
  { st with
    changedCells := st.changedCells.filter (fun k => k ≠ key)
    pendingClears := st.pendingClears.erase key }

/-- The synchronous start of `handleRefresh(row)`: add the component to
the refreshing set and launch one fetch task per endpoint entry — the
rows themselves are not touched. Returns the new state and the launched
`(component, environment, url)` tasks. -/
def handleRefreshStart (st : MatrixState) (row : ComponentRow) :
    MatrixState × List (String × String × String) :=
  ({ st with refreshing := insertIfAbsent st.refreshing row.name },
   row.endpoints.map (fun kv => (row.name, kv.1, kv.2)))

/-- One step of the global refresh: start a refresh for the next checked
row, accumulating launched tasks. -/
def globalStep (acc : MatrixState × List (String × String × String))
    (r : ComponentRow) : MatrixState × List (String × String × String) :=
  let p := handleRefreshStart acc.1 r
  (p.1, acc.2 ++ p.2)

/-- Global refresh `handleGlobalRefresh()`: nothing when no row is
checked; otherwise start a refresh for every checked row. -/
def handleGlobalRefreshStart (st : MatrixState) (checked : List String) :
    MatrixState × List (String × String × String) :=
  if checked = [] then (st, [])
  else
    (st.allRows.filter (fun r => r.name ∈ checked)).foldl globalStep (st, [])

/-- The per-row update used by the resolution's read-modify-replace `map`:
only the matching row's `versions[env]` is rewritten. -/
def updRow (name env cell : String) (r : ComponentRow) : ComponentRow :=
  if r.name = name then { r with versions := setEntry r.versions env cell } else r

/-- One step of the changed-mark pass: a matching row whose previous cell
differs from the resolved one triggers `markCellAsChanged`. -/
def markStep (name env cell : String) (s : MatrixState) (r : ComponentRow) : MatrixState :=
  if r.name = name ∧ alGet r.versions env ≠ some cell then
    markCellAsChanged s name env
  else s

/-- One fetch settling for `(name, env)` with cell string `cell`: the
shared body of the success and catch arms of `handleRefresh`. Rows are
updated by a read-modify-replace `map` touching only the matching row's
`versions[env]`; each matching row whose previous cell differs triggers
`markCellAsChanged`; finally the cache is rewritten from the updated
rows. -/
def applyResolution (st : MatrixState) (name env cell : String) : MatrixState :=
  let updated := st.allRows.map (updRow name env cell)
  let st₁ := st.allRows.foldl (markStep name env cell) st
  { st₁ with allRows := updated, store := saveCachedVersions updated }

/-- A full settle event: run `fetchVersion` against the oracle outcome and
apply the resolution with the value or classified sentinel. -/
def handleFetchSettled (st : MatrixState) (name env : String)
    (preAborted : Bool) (outcome : NetOutcome) : MatrixState :=
  applyResolution st name env (resolvedCell (fetchVersion preAborted outcome))

/-- An env→URL mapping expressed in the per-environment annotation format
(format class 1 of the extractor cascade). -/
def perEnvEnc (pairs : List (String × String)) : List (String × JsonVal) :=
  pairs.map (fun p => (perEnvKeyStart ++ p.1, JsonVal.str p.2))

/-- The same mapping expressed as the structured legacy object shape. -/
def objEnc (pairs : List (String × String)) : List (String × JsonVal) :=
  [(versionsKey, JsonVal.obj (pairs.map (fun p => (p.1, JsonVal.str p.2))))]

/-- The same mapping expressed as the structured legacy array shape
(an array of single-entry objects). -/
def arrEnc (pairs : List (String × String)) : List (String × JsonVal) :=
  [(versionsKey, JsonVal.arr (pairs.map (fun p => JsonVal.obj [(p.1, JsonVal.str p.2)])))]

/-- The same mapping expressed as a structured legacy string shape. -/
def strEnc (s : String) : List (String × JsonVal) :=
  [(versionsKey, JsonVal.str s)]

/-- The same mapping expressed in the flat legacy comma-separated
`ENV=URL` format (format class 3). -/
def flatEnc (s : String) : List (String × JsonVal) :=
  [(endpointsKey, JsonVal.str s)]

/-- One step of the plain map construction from env→URL pairs. -/
def setStep (m : EndpointMap) (p : String × String) : EndpointMap :=
  setEntry m p.1 p.2

/-- The EndpointMap an env→URL pair list denotes (insertion-order map
construction). -/
def expectedMap (pairs : List (String × String)) : EndpointMap :=
  pairs.foldl setStep []

/-- A concrete fixture row used by the closed statements below. -/
def sampleRow : ComponentRow :=
  { name := "comp-a"
    title := none
    description := none
    nspace := "default"
    system := none
    endpoints := [("INT", "http://a"), ("PRO", "http://b")]
    versions := [("INT", "1.0.0")] }

/-- A concrete fixture state holding `sampleRow` only. -/
def sampleState : MatrixState :=
  { allRows := [sampleRow]
    refreshing := []
    changedCells := []
    pendingClears := []
    store := .missing }

/-- A concrete fixture entity exposing `{INT: urlA, PRO: urlB}` through
per-environment annotation keys. -/
def sampleEntity : Entity :=
  { name := "comp-a"
    annotations := [("is3-devportal/version-int", JsonVal.str "http://a"),
                    ("is3-devportal/version-pro", JsonVal.str "http://b")] }

/-! ### Association-list and map-update lemmas -/

theorem alGet_cons {β : Type} (a : String) (b : β) (rest : List (String × β)) (k : String) :
    alGet ((a, b) :: rest) k = if a = k then some b else alGet rest k :=
  rfl

theorem alGet_of_any_eq_false {β : Type} {m : List (String × β)} {k : String}
    (h : m.any (fun p => p.1 = k) = false) : alGet m k = none := by
  induction m with
  | nil => rfl
  | cons p rest ih =>
    obtain ⟨a, b⟩ := p
    simp only [List.any_cons, Bool.or_eq_false_iff, decide_eq_false_iff_not] at h
    rw [alGet_cons, if_neg h.1]
    exact ih h.2

theorem alGet_append_of_none {β : Type} {m₁ : List (String × β)}
    (m₂ : List (String × β)) {k : String} (h : alGet m₁ k = none) :
    alGet (m₁ ++ m₂) k = alGet m₂ k := by
  induction m₁ with
  | nil => rfl
  | cons p rest ih =>
    obtain ⟨a, b⟩ := p
    rw [alGet_cons] at h
    by_cases hak : a = k
    · rw [if_pos hak] at h
      exact absurd h (by simp)
    · rw [if_neg hak] at h
      rw [List.cons_append, alGet_cons, if_neg hak]
      exact ih h

theorem alGet_append_of_some {β : Type} {m₁ : List (String × β)}
    (m₂ : List (String × β)) {k : String} {v : β} (h : alGet m₁ k = some v) :
    alGet (m₁ ++ m₂) k = some v := by
  induction m₁ with
  | nil => exact absurd h (by simp [alGet])
  | cons p rest ih =>
    obtain ⟨a, b⟩ := p
    rw [alGet_cons] at h
    by_cases hak : a = k
    · rw [if_pos hak] at h
      rw [List.cons_append, alGet_cons, if_pos hak]
      exact h
    · rw [if_neg hak] at h
      rw [List.cons_append, alGet_cons, if_neg hak]
      exact ih h

theorem alGet_replaceMap_self {β : Type} {m : List (String × β)} {k : String} (v : β)
    (h : m.any (fun p => p.1 = k) = true) :
    alGet (m.map (fun p => if p.1 = k then (k, v) else p)) k = some v := by
  induction m with
  | nil => simp at h
  | cons p rest ih =>
    obtain ⟨a, b⟩ := p
    by_cases hak : a = k
    · rw [List.map_cons]
      have hhead : (if ((a, b) : String × β).1 = k then (k, v) else (a, b)) = (k, v) := by
        simp [hak]
      rw [hhead, alGet_cons, if_pos rfl]
    · simp only [List.any_cons, Bool.or_eq_true, decide_eq_true_eq] at h
      have h' : rest.any (fun p => p.1 = k) = true := by
        rcases h with h | h
        · exact absurd h hak
        · exact h
      rw [List.map_cons]
      have hhead : (if ((a, b) : String × β).1 = k then (k, v) else (a, b)) = (a, b) := by
        simp [hak]
      rw [hhead, alGet_cons, if_neg hak]
      exact ih h'

theorem alGet_replaceMap_ne {β : Type} {m : List (String × β)} {k k' : String} (v : β)
    (h : k' ≠ k) :
    alGet (m.map (fun p => if p.1 = k then (k, v) else p)) k' = alGet m k' := by
  induction m with
  | nil => rfl
  | cons p rest ih =>
    obtain ⟨a, b⟩ := p
    rw [List.map_cons]
    by_cases hak : a = k
    · have hhead : (if ((a, b) : String × β).1 = k then (k, v) else (a, b)) = (k, v) := by
        simp [hak]
      rw [hhead, alGet_cons, if_neg (fun hc => h hc.symm), alGet_cons,
        if_neg (fun hc : a = k' => h (hak ▸ hc).symm)]
      exact ih
    · have hhead : (if ((a, b) : String × β).1 = k then (k, v) else (a, b)) = (a, b) := by
        simp [hak]
      rw [hhead, alGet_cons, alGet_cons]
      by_cases hak' : a = k'
      · rw [if_pos hak', if_pos hak']
      · rw [if_neg hak', if_neg hak']
        exact ih

theorem any_eq_false_of_ne_true {β : Type} {m : List (String × β)} {k : String}
    (h : ¬ m.any (fun p => p.1 = k) = true) : m.any (fun p => p.1 = k) = false := by
  cases hb : m.any (fun p => p.1 = k)
  · rfl
  · exact absurd hb h

theorem alGet_setEntry_self {β : Type} (m : List (String × β)) (k : String) (v : β) :
    alGet (setEntry m k v) k = some v := by
  unfold setEntry
  by_cases h : m.any (fun p => p.1 = k) = true
  · simp only [h, if_true]
    exact alGet_replaceMap_self v h
  · simp only [any_eq_false_of_ne_true h, Bool.false_eq_true, if_false]
    rw [alGet_append_of_none _ (alGet_of_any_eq_false (any_eq_false_of_ne_true h)),
      alGet_cons, if_pos rfl]

theorem alGet_setEntry_ne {β : Type} (m : List (String × β)) {k k' : String} (v : β)
    (h : k' ≠ k) : alGet (setEntry m k v) k' = alGet m k' := by
  unfold setEntry
  by_cases hb : m.any (fun p => p.1 = k) = true
  · simp only [hb, if_true]
    exact alGet_replaceMap_ne v h
  · simp only [any_eq_false_of_ne_true hb, Bool.false_eq_true, if_false]
    cases hm : alGet m k' with
    | some v' => exact alGet_append_of_some _ hm
    | none =>
      rw [alGet_append_of_none _ hm, alGet_cons, if_neg (fun hc => h hc.symm)]
      rfl

theorem setEntry_ne_nil {β : Type} (m : List (String × β)) (k : String) (v : β) :
    setEntry m k v ≠ [] := by
  unfold setEntry
  by_cases hb : m.any (fun p => p.1 = k) = true
  · simp only [hb, if_true]
    intro hcontra
    rw [List.map_eq_nil_iff] at hcontra
    subst hcontra
    simp at hb
  · simp [any_eq_false_of_ne_true hb]

theorem mem_setEntry {β : Type} {m : List (String × β)} {k : String} {v : β}
    {kv : String × β} (h : kv ∈ setEntry m k v) : kv = (k, v) ∨ kv ∈ m := by
  unfold setEntry at h
  by_cases hb : m.any (fun p => p.1 = k) = true
  · simp only [hb, if_true] at h
    obtain ⟨p, hp, hpkv⟩ := List.mem_map.mp h
    by_cases hpk : p.1 = k
    · rw [if_pos hpk] at hpkv
      exact Or.inl hpkv.symm
    · rw [if_neg hpk] at hpkv
      exact Or.inr (hpkv ▸ hp)
  · simp only [any_eq_false_of_ne_true hb, Bool.false_eq_true, if_false] at h
    rcases List.mem_append.mp h with h | h
    · exact Or.inr h
    · exact Or.inl (List.mem_singleton.mp h)

theorem mem_insertIfAbsent {l : List String} {x y : String} :
    y ∈ insertIfAbsent l x ↔ y ∈ l ∨ y = x := by
  unfold insertIfAbsent
  by_cases h : x ∈ l
  · rw [if_pos h]
    constructor
    · exact Or.inl
    · rintro (hy | rfl)
      · exact hy
      · exact h
  · rw [if_neg h]
    simp [List.mem_append]

theorem insertIfAbsent_of_mem {l : List String} {x : String} (h : x ∈ l) :
    insertIfAbsent l x = l := by
  unfold insertIfAbsent
  exact if_pos h

/-! ### String-embedding lemmas -/

theorem string_mk_data (s : String) : String.mk s.data = s :=
  rfl

theorem isPrefixOf_append_self (l t : List Char) : l.isPrefixOf (l ++ t) = true := by
  induction l with
  | nil => simp
  | cons a as ih => simp [ih]

theorem jsStartsWith_append (p e : String) : jsStartsWith (p ++ e) p = true := by
  unfold jsStartsWith
  rw [String.data_append]
  exact isPrefixOf_append_self _ _

theorem jsDropChars_append (p e : String) : jsDropChars (p ++ e) p.length = e := by
  unfold jsDropChars
  rw [String.data_append, List.drop_left' (show p.data.length = p.length from rfl)]

/-! ### Fold lemmas for the extractor encodings -/

theorem foldl_setStep_ne_nil (pairs : List (String × String)) (m : EndpointMap)
    (h : pairs ≠ [] ∨ m ≠ []) : pairs.foldl setStep m ≠ [] := by
  induction pairs generalizing m with
  | nil =>
    rcases h with h | h
    · exact absurd rfl h
    · exact h
  | cons p ps ih =>
    rw [List.foldl_cons]
    exact ih _ (Or.inr (setEntry_ne_nil _ _ _))

theorem expectedMap_ne_nil {pairs : List (String × String)} (h : pairs ≠ []) :
    expectedMap pairs ≠ [] :=
  foldl_setStep_ne_nil pairs [] (Or.inl h)

theorem perEnv_foldl_enc (pairs : List (String × String)) (m : EndpointMap)
    (h : ∀ p ∈ pairs, jsToUpper p.1 = p.1 ∧ jsTrim p.2 = p.2) :
    (perEnvEnc pairs).foldl perEnvStep m = pairs.foldl setStep m := by
  induction pairs generalizing m with
  | nil => rfl
  | cons p ps ih =>
    obtain ⟨e, u⟩ := p
    have h1 : jsToUpper e = e := (h (e, u) (List.mem_cons_self _ _)).1
    have h2 : jsTrim u = u := (h (e, u) (List.mem_cons_self _ _)).2
    have hstep : perEnvStep m (perEnvKeyStart ++ e, JsonVal.str u) = setEntry m e u := by
      simp only [perEnvStep]
      rw [jsStartsWith_append, if_pos rfl, jsDropChars_append, h1, h2]
    simp only [perEnvEnc, List.map_cons, List.foldl_cons]
    rw [hstep]
    exact ih _ (fun q hq => h q (List.mem_cons_of_mem _ hq))

theorem ent_foldl_enc (pairs : List (String × String)) (m : EndpointMap)
    (h : ∀ p ∈ pairs, cleanUrl p.2 = p.2) :
    entriesToMap m (pairs.map (fun p => (p.1, JsonVal.str p.2))) = pairs.foldl setStep m := by
  induction pairs generalizing m with
  | nil => rfl
  | cons p ps ih =>
    obtain ⟨e, u⟩ := p
    have hp : cleanUrl u = u := h (e, u) (List.mem_cons_self _ _)
    simp only [entriesToMap, List.map_cons, List.foldl_cons]
    have hstep : entStep m (e, JsonVal.str u) = setEntry m e u := by
      simp only [entStep]
      rw [hp]
    rw [hstep]
    exact ih _ (fun q hq => h q (List.mem_cons_of_mem _ hq))

theorem arr_foldl_enc (pairs : List (String × String)) (m : EndpointMap)
    (h : ∀ p ∈ pairs, cleanUrl p.2 = p.2) :
    (pairs.map (fun p => JsonVal.obj [(p.1, JsonVal.str p.2)])).foldl arrStep m =
      pairs.foldl setStep m := by
  induction pairs generalizing m with
  | nil => rfl
  | cons p ps ih =>
    obtain ⟨e, u⟩ := p
    have hp : cleanUrl u = u := h (e, u) (List.mem_cons_self _ _)
    simp only [List.map_cons, List.foldl_cons]
    have hstep : arrStep m (JsonVal.obj [(e, JsonVal.str u)]) = setEntry m e u := by
      show entriesToMap m [(e, JsonVal.str u)] = setEntry m e u
      simp only [entriesToMap, List.foldl_cons, List.foldl_nil, entStep]
      rw [hp]
    rw [hstep]
    exact ih _ (fun q hq => h q (List.mem_cons_of_mem _ hq))

/-! ### Cascade-stage lemmas for `parseEndpoints` -/

theorem parseEndpoints_of_perEnv {annotations : List (String × JsonVal)}
    (h : perEnvMap annotations ≠ []) :
    parseEndpoints annotations = .ok (perEnvMap annotations) := by
  unfold parseEndpoints
  rw [if_pos h]

theorem parseEndpoints_of_obj {annotations : List (String × JsonVal)}
    (h1 : perEnvMap annotations = [])
    (hne : objBranch (alGet annotations versionsKey) ≠ []) :
    parseEndpoints annotations = .ok (objBranch (alGet annotations versionsKey)) := by
  unfold parseEndpoints
  rw [if_neg (not_not_intro h1), if_pos hne]

theorem parseEndpoints_of_arr {annotations : List (String × JsonVal)}
    (h1 : perEnvMap annotations = [])
    (h2 : objBranch (alGet annotations versionsKey) = [])
    (hne : arrBranch (alGet annotations versionsKey) ≠ []) :
    parseEndpoints annotations = .ok (arrBranch (alGet annotations versionsKey)) := by
  unfold parseEndpoints
  rw [if_neg (not_not_intro h1), if_neg (not_not_intro h2), if_pos hne]

theorem parseEndpoints_of_json {annotations : List (String × JsonVal)}
    (h1 : perEnvMap annotations = [])
    (h2 : objBranch (alGet annotations versionsKey) = [])
    (h3 : arrBranch (alGet annotations versionsKey) = [])
    (hne : jsonBranch (alGet annotations versionsKey) ≠ []) :
    parseEndpoints annotations = .ok (jsonBranch (alGet annotations versionsKey)) := by
  unfold parseEndpoints
  rw [if_neg (not_not_intro h1), if_neg (not_not_intro h2), if_neg (not_not_intro h3),
    if_pos hne]

theorem perEnv_foldl_keys (annotations : List (String × JsonVal)) (m : EndpointMap)
    (hm : ∀ kv ∈ m, ∃ e, kv.1 = jsToUpper e) :
    ∀ kv ∈ annotations.foldl perEnvStep m, ∃ e, kv.1 = jsToUpper e := by
  induction annotations generalizing m with
  | nil => exact hm
  | cons a as ih =>
    rw [List.foldl_cons]
    apply ih
    intro kv hkv
    obtain ⟨k, v⟩ := a
    cases v with
    | str s =>
      simp only [perEnvStep] at hkv
      by_cases hks : jsStartsWith k perEnvKeyStart = true
      · rw [if_pos hks] at hkv
        rcases mem_setEntry hkv with rfl | hkv'
        · exact ⟨_, rfl⟩
        · exact hm _ hkv'
      · rw [if_neg hks] at hkv
        exact hm _ hkv
    | num n => exact hm _ hkv
    | bool b => exact hm _ hkv
    | null => exact hm _ hkv
    | obj fs => exact hm _ hkv
    | arr xs => exact hm _ hkv

/-! ### Claims about the endpoint extractor (C2, C3, C5) -/

/-- C2, counterexample. The flat legacy encoding (format class 3) is not
equivalent to the others: its own annotation key starts with the
per-environment pattern, so format class 1 captures the raw
comma-separated string as a single entry keyed `ENDPOINTS`. Additionally
the line-oriented string shape of format class 2 splits a URL at its
first colon (`split(/:\s*/, 2)` truncates `http://a` to `http`). -/
theorem flat_legacy_shadowed_counterexample :
    parseEndpoints (flatEnc "INT=http://a,PRO=http://b") =
      .ok [("ENDPOINTS", "INT=http://a,PRO=http://b")] ∧
    parseEndpoints (perEnvEnc [("INT", "http://a"), ("PRO", "http://b")]) =
      .ok [("INT", "http://a"), ("PRO", "http://b")] ∧
    ([("ENDPOINTS", "INT=http://a,PRO=http://b")] : EndpointMap) ≠
      [("INT", "http://a"), ("PRO", "http://b")] ∧
    parseEndpoints (strEnc "INT: http://a") = .ok [("INT", "http")] ∧
    ([("INT", "http")] : EndpointMap) ≠ [("INT", "http://a")] :=
  ⟨rfl, rfl, by decide, rfl, by decide⟩

/-- C2 (amended): for a nonempty env→URL mapping whose environment names
are upper-case-invariant and whose URLs are trimmed and comma-free, the
per-environment key format and the structured legacy object, array and
JSON-string shapes all yield the same EndpointMap. (The flat legacy
comma-separated format and the line-oriented string shape do not — see
the counterexample.) -/
theorem extract_format_independence (pairs : List (String × String)) (s : String)
    (hne : pairs ≠ [])
    (hclean : ∀ p ∈ pairs, jsToUpper p.1 = p.1 ∧ jsTrim p.2 = p.2 ∧ cleanUrl p.2 = p.2)
    (hjson : jsonParse s = some (JsonVal.obj (pairs.map (fun p => (p.1, JsonVal.str p.2))))) :
    parseEndpoints (perEnvEnc pairs) = .ok (expectedMap pairs) ∧
    parseEndpoints (objEnc pairs) = .ok (expectedMap pairs) ∧
    parseEndpoints (arrEnc pairs) = .ok (expectedMap pairs) ∧
    parseEndpoints (strEnc s) = .ok (expectedMap pairs) := by
  have hexp : expectedMap pairs ≠ [] := expectedMap_ne_nil hne
  have hperEnv : perEnvMap (perEnvEnc pairs) = expectedMap pairs :=
    perEnv_foldl_enc pairs [] (fun p hp => ⟨(hclean p hp).1, (hclean p hp).2.1⟩)
  have hobj : objBranch (alGet (objEnc pairs) versionsKey) = expectedMap pairs := by
    show entriesToMap [] (pairs.map (fun p => (p.1, JsonVal.str p.2))) = expectedMap pairs
    exact ent_foldl_enc pairs [] (fun p hp => (hclean p hp).2.2)
  have harr : arrBranch (alGet (arrEnc pairs) versionsKey) = expectedMap pairs := by
    show (pairs.map (fun p => JsonVal.obj [(p.1, JsonVal.str p.2)])).foldl arrStep [] =
      expectedMap pairs
    exact arr_foldl_enc pairs [] (fun p hp => (hclean p hp).2.2)
  refine ⟨?_, ?_, ?_, ?_⟩
  · rw [@parseEndpoints_of_perEnv (perEnvEnc pairs) (hperEnv ▸ hexp), hperEnv]
  · rw [@parseEndpoints_of_obj (objEnc pairs) rfl (hobj ▸ hexp), hobj]
  · rw [@parseEndpoints_of_arr (arrEnc pairs) rfl rfl (harr ▸ hexp), harr]
  · have hjb : jsonBranch (alGet (strEnc s) versionsKey) = expectedMap pairs := by
      show jsonBranch (some (JsonVal.str s)) = expectedMap pairs
      simp only [jsonBranch]
      rw [hjson]
      show entriesToMap [] (pairs.map (fun p => (p.1, JsonVal.str p.2))) = expectedMap pairs
      exact ent_foldl_enc pairs [] (fun p hp => (hclean p hp).2.2)
    rw [@parseEndpoints_of_json (strEnc s) rfl rfl rfl (hjb ▸ hexp), hjb]

/-- Witness for the amended C2 theorem at a concrete one-entry mapping. -/
theorem extract_format_independence_witness :
    parseEndpoints (objEnc [("INT", "http://a")]) = .ok (expectedMap [("INT", "http://a")]) ∧
    parseEndpoints (strEnc "\x7b\"INT\":\"http://a\"\x7d") =
      .ok (expectedMap [("INT", "http://a")]) := by
  have h := extract_format_independence [("INT", "http://a")] "\x7b\"INT\":\"http://a\"\x7d"
    (by decide) (by decide) rfl
  exact ⟨h.2.1, h.2.2.2⟩

/-- C3, counterexample. `extract` can raise: a truthy non-string value
under the flat legacy key `is3-devportal/version-endpoints` is not caught
by any earlier stage (the per-environment stage skips non-string values),
and the final stage calls `.split(',')` on it, a `TypeError`. -/
theorem extract_throws_counterexample :
    parseEndpoints [(endpointsKey, JsonVal.num 1)] =
      .error ⟨"TypeError", "legacyAnnotation.split is not a function"⟩ :=
  rfl

/-- C3 (amended): `extract` never raises on any metadata whose value under
the flat legacy key — when present — is a string or falsy; in particular
malformed JSON strings, non-object values under the structured legacy
key, and absent annotations are all safe, and every such input returns
some (possibly empty) map. -/
theorem extract_total_on_safe_inputs (annotations : List (String × JsonVal))
    (h : ∀ v, alGet annotations endpointsKey = some v →
      (∃ s, v = JsonVal.str s) ∨ jsFalsy v = true) :
    ∃ m, parseEndpoints annotations = .ok m := by
  unfold parseEndpoints
  by_cases h1 : perEnvMap annotations ≠ []
  · rw [if_pos h1]
    exact ⟨_, rfl⟩
  · rw [if_neg h1]
    by_cases h2 : objBranch (alGet annotations versionsKey) ≠ []
    · rw [if_pos h2]
      exact ⟨_, rfl⟩
    · rw [if_neg h2]
      by_cases h3 : arrBranch (alGet annotations versionsKey) ≠ []
      · rw [if_pos h3]
        exact ⟨_, rfl⟩
      · rw [if_neg h3]
        by_cases h4 : jsonBranch (alGet annotations versionsKey) ≠ []
        · rw [if_pos h4]
          exact ⟨_, rfl⟩
        · rw [if_neg h4]
          by_cases h5 : linesBranch (alGet annotations versionsKey) ≠ []
          · rw [if_pos h5]
            exact ⟨_, rfl⟩
          · rw [if_neg h5]
            unfold legacyBranch
            split
            · exact ⟨[], rfl⟩
            · rename_i v halg
              split
              · exact ⟨[], rfl⟩
              · rename_i hfv
                split
                · exact ⟨_, rfl⟩
                · rename_i harm
                  rcases h v halg with ⟨s, rfl⟩ | hf
                  · exact absurd rfl (harm s)
                  · exact absurd hf hfv

/-- Witness for the amended C3 theorem: a malformed JSON string under the
structured legacy key and an absent flat legacy key. -/
theorem extract_total_witness :
    ∃ m, parseEndpoints [(versionsKey, JsonVal.str "not json at all")] = .ok m :=
  extract_total_on_safe_inputs _ (fun v hv => by cases hv)

/-- C5, counterexample. Keys are not case-normalized in every format
class: the structured legacy object branch stores environment names with
the case given in the metadata, so `{int: u}` yields the lower-case key
`int`. -/
theorem legacy_keys_keep_case_counterexample :
    parseEndpoints [(versionsKey, JsonVal.obj [("int", JsonVal.str "u")])] =
      .ok [("int", "u")] ∧ jsToUpper "int" ≠ "int" :=
  ⟨rfl, by decide⟩

/-- C5 (amended): whenever the per-environment annotation format yields
entries (and is therefore the map `extract` returns), every key of the
result is an upper-cased image (`toUpperCase` of the annotation-key
suffix); the legacy format classes instead keep the case given in the
metadata. -/
theorem perEnv_keys_uppercased (annotations : List (String × JsonVal))
    (h : perEnvMap annotations ≠ []) :
    parseEndpoints annotations = .ok (perEnvMap annotations) ∧
    ∀ kv ∈ perEnvMap annotations, ∃ e, kv.1 = jsToUpper e :=
  ⟨parseEndpoints_of_perEnv h,
   perEnv_foldl_keys annotations [] (fun _ hkv => absurd hkv (List.not_mem_nil _))⟩

/-- Witness for the amended C5 theorem at a concrete annotation set. -/
theorem perEnv_keys_uppercased_witness :
    parseEndpoints [("is3-devportal/version-int", JsonVal.str "u")] =
      .ok (perEnvMap [("is3-devportal/version-int", JsonVal.str "u")]) :=
  (perEnv_keys_uppercased [("is3-devportal/version-int", JsonVal.str "u")] (by decide)).1

/-! ### Fetcher classification (C6) -/

theorem http_msg_ne_timeout (s : String) : ("HTTP " ++ s) ≠ "TIMEOUT" := by
  intro h
  have hd : ("HTTP " ++ s).data.head? = "TIMEOUT".data.head? := by rw [h]
  rw [String.data_append] at hd
  have h1 : ("HTTP ".data ++ s.data).head? = some 'H' := rfl
  have h2 : "TIMEOUT".data.head? = some 'T' := rfl
  rw [h1, h2] at hd
  exact absurd (Option.some.inj hd) (by decide)

theorem classifyErr_http (s : String) :
    classifyErr ⟨"Error", "HTTP " ++ s⟩ = "HTTP " ++ s := by
  unfold classifyErr
  rw [if_neg (http_msg_ne_timeout s)]
  have hsw : jsStartsWith ("HTTP " ++ s) "HTTP " = true := jsStartsWith_append _ _
  rw [hsw, if_pos rfl]

/-- C6: `fetchVersion` classifies every outcome — a 2xx response yields
the trimmed text body (any text, including the empty string); a non-2xx
response fails as an error carrying the literal status (`HTTP <code>`,
its per-cell sentinel); an abort (internal timeout or external
cancellation, including a signal already fired before the request is
issued) fails as `TIMEOUT`; any other transport-level failure is
rethrown unchanged and classified as the `N/C` (unreachable) sentinel.
The transport case assumes the thrown error does not spoof the reserved
`TIMEOUT`/`HTTP ` message shapes, because `handleRefresh` classifies by
message inspection; real browser transport errors (`TypeError: Failed to
fetch` etc.) never do. -/
theorem fetch_classification (status : Nat) (body : String) (e : JsError)
    (outcome : NetOutcome) :
    (resOk status = true →
      fetchVersion false (.response status body) = .ok (jsTrim body)) ∧
    (resOk status = false →
      fetchVersion false (.response status body) =
        .error ⟨"Error", "HTTP " ++ toString status⟩ ∧
      resolvedCell (fetchVersion false (.response status body)) =
        "HTTP " ++ toString status) ∧
    (fetchVersion false .aborted = .error ⟨"Error", "TIMEOUT"⟩ ∧
      resolvedCell (fetchVersion false .aborted) = "TIMEOUT") ∧
    (fetchVersion true outcome = .error ⟨"Error", "TIMEOUT"⟩ ∧
      resolvedCell (fetchVersion true outcome) = "TIMEOUT") ∧
    (e.name ≠ "AbortError" → e.message ≠ "TIMEOUT" →
      jsStartsWith e.message "HTTP " = false →
      fetchVersion false (.transportFailure e) = .error e ∧
      resolvedCell (fetchVersion false (.transportFailure e)) = "N/C") := by
  refine ⟨?_, ?_, ⟨rfl, rfl⟩, ⟨rfl, rfl⟩, ?_⟩
  · intro h
    simp only [fetchVersion, Bool.false_eq_true, if_false]
    rw [if_pos h]
  · intro h
    have hfv : fetchVersion false (.response status body) =
        .error ⟨"Error", "HTTP " ++ toString status⟩ := by
      simp only [fetchVersion, Bool.false_eq_true, if_false]
      rw [h]
      simp
    refine ⟨hfv, ?_⟩
    rw [hfv]
    exact classifyErr_http _
  · intro hn hm hsw
    have hfv : fetchVersion false (.transportFailure e) = .error e := by
      simp only [fetchVersion, Bool.false_eq_true, if_false]
      rw [if_neg hn]
    refine ⟨hfv, ?_⟩
    rw [hfv]
    show classifyErr e = "N/C"
    unfold classifyErr
    rw [if_neg hm, hsw]
    simp

/-- Witness for the C6 theorem at concrete outcomes: a 200 response with
padded body, a 404, and a browser transport error. -/
theorem fetch_classification_witness :
    fetchVersion false (.response 200 " 2.3.1 ") = .ok "2.3.1" ∧
    resolvedCell (fetchVersion false (.response 404 "nf")) = "HTTP 404" ∧
    resolvedCell (fetchVersion false
      (.transportFailure ⟨"TypeError", "Failed to fetch"⟩)) = "N/C" := by
  refine ⟨?_, ?_, ?_⟩
  · exact (fetch_classification 200 " 2.3.1 " ⟨"TypeError", "Failed to fetch"⟩
      .aborted).1 (by decide)
  · exact ((fetch_classification 404 "nf" ⟨"TypeError", "Failed to fetch"⟩
      .aborted).2.1 (by decide)).2
  · exact ((fetch_classification 0 "" ⟨"TypeError", "Failed to fetch"⟩
      .aborted).2.2.2.2 (by decide) (by decide) (by decide)).2

/-! ### Resolution-event lemmas (C7, C9, C10) -/

theorem applyResolution_allRows (st : MatrixState) (name env cell : String) :
    (applyResolution st name env cell).allRows = st.allRows.map (updRow name env cell) :=
  rfl

theorem applyResolution_changedCells (st : MatrixState) (name env cell : String) :
    (applyResolution st name env cell).changedCells =
      (st.allRows.foldl (markStep name env cell) st).changedCells :=
  rfl

theorem applyResolution_store (st : MatrixState) (name env cell : String) :
    (applyResolution st name env cell).store =
      saveCachedVersions (st.allRows.map (updRow name env cell)) :=
  rfl

theorem mem_changed_foldl_markStep (name env cell key' : String) :
    ∀ (rows : List ComponentRow) (s : MatrixState),
    (key' ∈ (rows.foldl (markStep name env cell) s).changedCells ↔
      key' ∈ s.changedCells ∨
        (key' = name ++ "-" ++ env ∧
          ∃ r ∈ rows, r.name = name ∧ alGet r.versions env ≠ some cell)) := by
  intro rows
  induction rows with
  | nil => simp
  | cons r rows ih =>
    intro s
    rw [List.foldl_cons]
    by_cases hc : r.name = name ∧ alGet r.versions env ≠ some cell
    · rw [show markStep name env cell s r = markCellAsChanged s name env from by
        unfold markStep; rw [if_pos hc]]
      rw [ih]
      simp only [markCellAsChanged, mem_insertIfAbsent, List.mem_cons]
      constructor
      · rintro ((hmem | rfl) | ⟨rfl, r', hr', hd⟩)
        · exact Or.inl hmem
        · exact Or.inr ⟨rfl, r, Or.inl rfl, hc⟩
        · exact Or.inr ⟨rfl, r', Or.inr hr', hd⟩
      · rintro (hmem | ⟨rfl, r', hr' | hr', hd⟩)
        · exact Or.inl (Or.inl hmem)
        · exact Or.inl (Or.inr rfl)
        · exact Or.inr ⟨rfl, r', hr', hd⟩
    · rw [show markStep name env cell s r = s from by unfold markStep; rw [if_neg hc]]
      rw [ih]
      constructor
      · rintro (hmem | ⟨rfl, r', hr', hd⟩)
        · exact Or.inl hmem
        · exact Or.inr ⟨rfl, r', List.mem_cons_of_mem _ hr', hd⟩
      · rintro (hmem | ⟨rfl, r', hr', hd⟩)
        · exact Or.inl hmem
        · rcases List.mem_cons.mp hr' with rfl | hr''
          · exact absurd ⟨hd.1, hd.2⟩ hc
          · exact Or.inr ⟨rfl, r', hr'', hd⟩

/-- C7: when a refresh fetch for component `name`, environment `env`
settles with cell value `cell`, the `name-env` cell is flagged "changed"
iff the resolved cell differs from the pre-refresh one (an absent
previous entry always counts as different), and executing the scheduled
1 s timer clears the flag; if the values are equal, no flag is set. -/
theorem changed_flag_iff_differs (st : MatrixState) (r : ComponentRow)
    (name env cell : String)
    (hr : r ∈ st.allRows) (hname : r.name = name)
    (hnodup : (st.allRows.map ComponentRow.name).Nodup)
    (hclean : name ++ "-" ++ env ∉ st.changedCells) :
    ((name ++ "-" ++ env) ∈ (applyResolution st name env cell).changedCells ↔
      alGet r.versions env ≠ some cell) ∧
    (name ++ "-" ++ env) ∉
      (runClear (applyResolution st name env cell) (name ++ "-" ++ env)).changedCells := by
  constructor
  · rw [applyResolution_changedCells, mem_changed_foldl_markStep]
    constructor
    · rintro (hmem | ⟨-, r', hr', hname', hd⟩)
      · exact absurd hmem hclean
      · have : r' = r :=
          List.inj_on_of_nodup_map hnodup hr' hr (by rw [hname', hname])
        rwa [← this]
    · intro hd
      exact Or.inr ⟨rfl, r, hr, hname, hd⟩
  · simp [runClear, List.mem_filter]

/-- Witness for the C7 theorem: resolving INT of the fixture row with a
new value flags the cell, and the timer clears it. -/
theorem changed_flag_iff_differs_witness :
    (("comp-a" ++ "-" ++ "INT") ∈
        (applyResolution sampleState "comp-a" "INT" "2.0.0").changedCells ↔
      alGet sampleRow.versions "INT" ≠ some "2.0.0") ∧
    ("comp-a" ++ "-" ++ "INT") ∉
      (runClear (applyResolution sampleState "comp-a" "INT" "2.0.0")
        ("comp-a" ++ "-" ++ "INT")).changedCells :=
  changed_flag_iff_differs sampleState sampleRow "comp-a" "INT" "2.0.0"
    (by simp [sampleState]) rfl (by simp [sampleState]) (by simp [sampleState])

/-- C9: a fetch completion for `(name, env)` is a frame-preserving update:
the row list keeps its length; every row whose name differs is untouched;
and the matching row changes only the `env` entry of its versions map
(all identity fields and every other environment's cell are unchanged). -/
theorem resolution_frame (st : MatrixState) (name env cell : String) :
    (applyResolution st name env cell).allRows.length = st.allRows.length ∧
    ∀ (i : Nat) (r₀ : ComponentRow), st.allRows[i]? = some r₀ →
      ((r₀.name ≠ name → (applyResolution st name env cell).allRows[i]? = some r₀) ∧
       (r₀.name = name →
         (applyResolution st name env cell).allRows[i]? =
           some { r₀ with versions := setEntry r₀.versions env cell } ∧
         alGet (setEntry r₀.versions env cell) env = some cell ∧
         ∀ e, e ≠ env → alGet (setEntry r₀.versions env cell) e = alGet r₀.versions e)) := by
  refine ⟨by rw [applyResolution_allRows, List.length_map], ?_⟩
  intro i r₀ hi
  constructor
  · intro hne
    rw [applyResolution_allRows, List.getElem?_map, hi]
    simp only [Option.map_some']
    rw [show updRow name env cell r₀ = r₀ from by unfold updRow; rw [if_neg hne]]
  · intro heq
    refine ⟨?_, alGet_setEntry_self _ _ _, fun e he => alGet_setEntry_ne _ _ he⟩
    rw [applyResolution_allRows, List.getElem?_map, hi]
    simp only [Option.map_some']
    rw [show updRow name env cell r₀ =
      { r₀ with versions := setEntry r₀.versions env cell } from by
        unfold updRow; rw [if_pos heq]]

/-- Witness for the C9 theorem at the fixture state: the single row is the
matching one, and its PRO cell survives an INT resolution. -/
theorem resolution_frame_witness :
    (applyResolution sampleState "comp-a" "INT" "2.0.0").allRows.length =
      sampleState.allRows.length ∧
    (applyResolution sampleState "comp-a" "INT" "2.0.0").allRows[0]? =
      some { sampleRow with versions := setEntry sampleRow.versions "INT" "2.0.0" } := by
  have h := resolution_frame sampleState "comp-a" "INT" "2.0.0"
  exact ⟨h.1, ((h.2 0 sampleRow rfl).2 rfl).1⟩

/-! ### Load and sorted-order lemmas (C10, C1, C8) -/

theorem load_ok_elim {store : CacheStore} {entities : List Entity} {res : LoadResult}
    (h : load store entities = .ok res) :
    ∃ envs rows,
      entities.foldlM (loadStep (loadCachedVersions store)) (DEFAULT_ENVIRONMENTS, []) =
        .ok (envs, rows) ∧
      res = ⟨envs, rows.insertionSort rowR⟩ := by
  unfold load at h
  cases hf : entities.foldlM (loadStep (loadCachedVersions store))
      (DEFAULT_ENVIRONMENTS, []) with
  | error e =>
    rw [hf] at h
    exact absurd h (by simp)
  | ok p =>
    rw [hf] at h
    obtain ⟨envs, rows⟩ := p
    exact ⟨envs, rows, rfl, (Except.ok.inj h).symm⟩

theorem updRow_name (name env cell : String) (r : ComponentRow) :
    (updRow name env cell r).name = r.name := by
  unfold updRow
  by_cases h : r.name = name
  · rw [if_pos h]
  · rw [if_neg h]

theorem applyResolution_names (st : MatrixState) (name env cell : String) :
    (applyResolution st name env cell).allRows.map ComponentRow.name =
      st.allRows.map ComponentRow.name := by
  rw [applyResolution_allRows, List.map_map]
  exact List.map_congr_left (fun r _ => updRow_name name env cell r)

/-- C10: full load publishes the rows sorted in ascending component-name
order, and every per-cell resolution maps rows in place, preserving the
name sequence (hence length and order) and therefore sortedness. -/
theorem rows_sorted_invariant :
    (∀ (store : CacheStore) (entities : List Entity) (res : LoadResult),
      load store entities = .ok res → res.rows.Pairwise rowR) ∧
    (∀ (st : MatrixState) (name env cell : String),
      (applyResolution st name env cell).allRows.map ComponentRow.name =
        st.allRows.map ComponentRow.name ∧
      (applyResolution st name env cell).allRows.length = st.allRows.length ∧
      (st.allRows.Pairwise rowR →
        (applyResolution st name env cell).allRows.Pairwise rowR)) := by
  constructor
  · intro store entities res h
    obtain ⟨envs, rows, -, rfl⟩ := load_ok_elim h
    exact List.sorted_insertionSort rowR rows
  · intro st name env cell
    have hnames := applyResolution_names st name env cell
    refine ⟨hnames, by rw [applyResolution_allRows, List.length_map], ?_⟩
    intro hs
    have h1 : (st.allRows.map ComponentRow.name).Pairwise (· ≤ ·) :=
      (@List.pairwise_map ComponentRow String ComponentRow.name (· ≤ ·) st.allRows).mpr hs
    rw [← hnames] at h1
    exact (@List.pairwise_map ComponentRow String ComponentRow.name (· ≤ ·)
      (applyResolution st name env cell).allRows).mp h1

/-- Witness for the C10 theorem: a single-entity load is sorted, and a
resolution on the fixture state preserves the name sequence. -/
theorem rows_sorted_invariant_witness :
    (load .missing [sampleEntity]).map LoadResult.rows =
      .ok [{ sampleRow with versions := [] }] ∧
    ([{ sampleRow with versions := [] }] : List ComponentRow).Pairwise rowR ∧
    (applyResolution sampleState "comp-a" "INT" "2.0.0").allRows.map ComponentRow.name =
      sampleState.allRows.map ComponentRow.name := by
  refine ⟨rfl, ?_, (rows_sorted_invariant.2 sampleState "comp-a" "INT" "2.0.0").1⟩
  have h := rows_sorted_invariant.1 .missing [sampleEntity]
    ⟨["CONSO", "INT", "PRE", "PRO"], [{ sampleRow with versions := [] }]⟩ rfl
  exact h

/-! ### Selective-refresh start lemmas (C4) -/

theorem globalFold_allRows (lrows : List ComponentRow) :
    ∀ acc : MatrixState × List (String × String × String),
    (lrows.foldl globalStep acc).1.allRows = acc.1.allRows := by
  induction lrows with
  | nil => intro acc; rfl
  | cons r lrows ih =>
    intro acc
    rw [List.foldl_cons, ih]
    rfl

theorem globalFold_refreshing_mono (lrows : List ComponentRow) :
    ∀ (acc : MatrixState × List (String × String × String)) (n : String),
    n ∈ acc.1.refreshing → n ∈ (lrows.foldl globalStep acc).1.refreshing := by
  induction lrows with
  | nil => intro acc n h; exact h
  | cons r lrows ih =>
    intro acc n h
    rw [List.foldl_cons]
    exact ih _ n (mem_insertIfAbsent.mpr (Or.inl h))

theorem globalFold_refreshing_mem (lrows : List ComponentRow) :
    ∀ (acc : MatrixState × List (String × String × String)) (r : ComponentRow),
    r ∈ lrows → r.name ∈ (lrows.foldl globalStep acc).1.refreshing := by
  induction lrows with
  | nil => intro acc r h; exact absurd h (List.not_mem_nil r)
  | cons a lrows ih =>
    intro acc r h
    rw [List.foldl_cons]
    rcases List.mem_cons.mp h with rfl | h'
    · exact globalFold_refreshing_mono lrows _ _ (mem_insertIfAbsent.mpr (Or.inr rfl))
    · exact ih _ r h'

/-- C4, counterexample. Starting a refresh does not set any cell to
Pending: the rows are left byte-for-byte unchanged (the fixture's INT
cell still holds its resolved value `1.0.0` after the start), so no
Pending sentinel is written before the fetches run; the code has no
per-cell Pending representation at all, only the per-component
RefreshTicket. -/
theorem refresh_start_no_pending_counterexample :
    (handleRefreshStart sampleState sampleRow).1.allRows = sampleState.allRows ∧
    alGet sampleRow.versions "INT" = some "1.0.0" ∧
    alGet sampleRow.versions "PRO" = none :=
  ⟨rfl, rfl, rfl⟩

/-- C4 (amended): a selective refresh (single row or the checked set)
marks every targeted component as refreshing (its RefreshTicket) before
launching one fetch task per targeted environment, and leaves every cell
untouched at start — cells change only when their fetches resolve. -/
theorem refresh_marks_tickets_then_fetches (st : MatrixState) (row : ComponentRow)
    (checked : List String) :
    ((handleRefreshStart st row).1.allRows = st.allRows ∧
     row.name ∈ (handleRefreshStart st row).1.refreshing ∧
     (handleRefreshStart st row).2 =
       row.endpoints.map (fun kv => (row.name, kv.1, kv.2))) ∧
    ((handleGlobalRefreshStart st checked).1.allRows = st.allRows ∧
     ∀ r ∈ st.allRows, r.name ∈ checked →
       r.name ∈ (handleGlobalRefreshStart st checked).1.refreshing) := by
  refine ⟨⟨rfl, mem_insertIfAbsent.mpr (Or.inr rfl), rfl⟩, ?_⟩
  unfold handleGlobalRefreshStart
  by_cases hc : checked = []
  · rw [if_pos hc]
    exact ⟨rfl, fun r _ hmem => absurd hmem (by rw [hc]; exact List.not_mem_nil _)⟩
  · rw [if_neg hc]
    refine ⟨globalFold_allRows _ _, ?_⟩
    intro r hr hmem
    exact globalFold_refreshing_mem _ _ r
      (List.mem_filter.mpr ⟨hr, by simp [hmem]⟩)

/-- Witness for the amended C4 theorem at the fixture state. -/
theorem refresh_marks_tickets_witness :
    (handleRefreshStart sampleState sampleRow).1.allRows = sampleState.allRows ∧
    "comp-a" ∈ (handleGlobalRefreshStart sampleState ["comp-a"]).1.refreshing := by
  have h := refresh_marks_tickets_then_fetches sampleState sampleRow ["comp-a"]
  exact ⟨h.1.1, h.2.2 sampleRow (by simp [sampleState]) (by simp [sampleRow])⟩

/-! ### Cache-seeding lemmas (C1, C8) -/

theorem loadFold_versions (cached : List (String × VersionsMap)) :
    ∀ (entities : List Entity) (acc p : List String × List ComponentRow),
    entities.foldlM (loadStep cached) acc = .ok p →
    (∀ r ∈ acc.2, r.versions = (alGet cached r.name).getD []) →
    ∀ r ∈ p.2, r.versions = (alGet cached r.name).getD [] := by
  intro entities
  induction entities with
  | nil =>
    intro acc p h hacc
    rw [List.foldlM_nil] at h
    cases h
    exact hacc
  | cons e es ih =>
    intro acc p h hacc
    rw [List.foldlM_cons] at h
    cases hstep : loadStep cached acc e with
    | error err =>
      rw [hstep] at h
      exact absurd (show (Except.error err : Except JsError (List String × List ComponentRow))
        = .ok p from h) (by simp)
    | ok acc' =>
      rw [hstep] at h
      have h' : es.foldlM (loadStep cached) acc' = .ok p := h
      apply ih acc' p h'
      unfold loadStep at hstep
      split at hstep
      · exact absurd hstep (by simp)
      · rename_i endpoints hp
        split at hstep
        · cases hstep
          exact hacc
        · cases hstep
          intro r hr
          rcases List.mem_append.mp hr with hr' | hr'
          · exact hacc r hr'
          · rw [List.mem_singleton.mp hr']
            rfl

theorem load_rows_seeded (store : CacheStore) (entities : List Entity) (res : LoadResult)
    (h : load store entities = .ok res) :
    ∀ r ∈ res.rows, r.versions = (alGet (loadCachedVersions store) r.name).getD [] := by
  obtain ⟨envs, rows, hfold, rfl⟩ := load_ok_elim h
  intro r hr
  exact loadFold_versions _ entities _ _ hfold (fun r hr => absurd hr (List.not_mem_nil r))
    r ((List.perm_insertionSort rowR rows).mem_iff.mp hr)

theorem cacheFold_notin (n : String) :
    ∀ (rows : List ComponentRow) (c : List (String × VersionsMap)),
    n ∉ rows.map ComponentRow.name →
    alGet (rows.foldl cacheStep c) n = alGet c n := by
  intro rows
  induction rows with
  | nil => intro c _; rfl
  | cons r rows ih =>
    intro c hn
    rw [List.map_cons, List.mem_cons] at hn
    push_neg at hn
    rw [List.foldl_cons, ih _ hn.2]
    unfold cacheStep
    by_cases hv : r.versions ≠ ([] : VersionsMap)
    · rw [if_pos hv, alGet_setEntry_ne _ _ hn.1]
    · rw [if_neg hv]

theorem cacheFold_lookup (r : ComponentRow) :
    ∀ (rows : List ComponentRow) (c : List (String × VersionsMap)),
    r ∈ rows → (rows.map ComponentRow.name).Nodup →
    alGet (rows.foldl cacheStep c) r.name =
      if r.versions = ([] : VersionsMap) then alGet c r.name else some r.versions := by
  intro rows
  induction rows with
  | nil => intro c hr _; exact absurd hr (List.not_mem_nil r)
  | cons a rows ih =>
    intro c hr hnd
    rw [List.map_cons, List.nodup_cons] at hnd
    rw [List.foldl_cons]
    rcases List.mem_cons.mp hr with rfl | hr'
    · rw [cacheFold_notin r.name rows _ hnd.1]
      unfold cacheStep
      by_cases hv : r.versions = ([] : VersionsMap)
      · rw [if_neg (not_not_intro hv), if_pos hv]
      · rw [if_pos hv, if_neg hv, alGet_setEntry_self]
    · have hne : r.name ≠ a.name :=
        fun hc => hnd.1 (hc ▸ List.mem_map_of_mem ComponentRow.name hr')
      rw [ih _ hr' hnd.2]
      by_cases hv : r.versions = ([] : VersionsMap)
      · rw [if_pos hv, if_pos hv]
        unfold cacheStep
        by_cases hva : a.versions ≠ ([] : VersionsMap)
        · rw [if_pos hva, alGet_setEntry_ne _ _ hne]
        · rw [if_neg hva]
      · rw [if_neg hv, if_neg hv]

theorem cacheOf_lookup (rows : List ComponentRow) (r : ComponentRow)
    (hr : r ∈ rows) (hnd : (rows.map ComponentRow.name).Nodup) :
    (alGet (cacheOf rows) r.name).getD [] = r.versions := by
  unfold cacheOf
  rw [cacheFold_lookup r rows [] hr hnd]
  by_cases hv : r.versions = ([] : VersionsMap)
  · rw [if_pos hv, hv]
    rfl
  · rw [if_neg hv]
    rfl

/-- C1, counterexample. Full load performs no fetch at all: for the
example catalog (one component exposing `{INT: urlA, PRO: urlB}`) with an
empty cache, the published row's versions map is empty — not
`{INT: "2.3.1", PRO: Timeout}` — regardless of what the network would
return, because `load` publishes cache-seeded rows and stops (the
embedded `load` takes no network oracle, mirroring the source, whose
`load` makes no fetch call; fetches run only in `handleRefresh`). -/
theorem full_load_no_fetch_counterexample :
    load .missing [sampleEntity] =
      .ok ⟨["CONSO", "INT", "PRE", "PRO"], [{ sampleRow with versions := [] }]⟩ ∧
    ({ sampleRow with versions := [] } : ComponentRow).versions ≠
      [("INT", "2.3.1"), ("PRO", "TIMEOUT")] :=
  ⟨rfl, by decide⟩

/-- C1 (amended): a full load publishes the row set immediately with each
component's versions seeded from the cache snapshot and initiates no
fetches; per-environment fetches run only on selective refresh, and each
resolution persists a cache snapshot taken from the updated row set. -/
theorem full_load_publishes_cached_rows :
    (∀ (store : CacheStore) (entities : List Entity) (res : LoadResult),
      load store entities = .ok res →
      ∀ r ∈ res.rows, r.versions = (alGet (loadCachedVersions store) r.name).getD []) ∧
    (∀ (st : MatrixState) (name env cell : String),
      (applyResolution st name env cell).store =
        saveCachedVersions ((applyResolution st name env cell).allRows)) :=
  ⟨load_rows_seeded, fun _ _ _ _ => rfl⟩

/-- Witness for the amended C1 theorem at the fixture catalog. -/
theorem full_load_publishes_cached_rows_witness :
    ({ sampleRow with versions := [] } : ComponentRow).versions =
      (alGet (loadCachedVersions .missing)
        ({ sampleRow with versions := [] } : ComponentRow).name).getD [] :=
  full_load_publishes_cached_rows.1 .missing [sampleEntity]
    ⟨["CONSO", "INT", "PRE", "PRO"], [{ sampleRow with versions := [] }]⟩ rfl
    { sampleRow with versions := [] } (List.mem_singleton.mpr rfl)

/-- C8: the cache snapshot saved from a row set, when read back by a fresh
load before any network activity, seeds each published component that
shares a name with a prior row with exactly the prior versions
(save/load round-trip); a corrupt or missing cache slot is treated as
empty, seeding every row with the empty versions map. -/
theorem cache_roundtrip (rows : List ComponentRow) (entities : List Entity)
    (res res' res'' : LoadResult)
    (hnd : (rows.map ComponentRow.name).Nodup) :
    (load (saveCachedVersions rows) entities = .ok res →
      ∀ r' ∈ res.rows, ∀ r ∈ rows, r'.name = r.name → r'.versions = r.versions) ∧
    (load .corrupt entities = .ok res' →
      ∀ r' ∈ res'.rows, r'.versions = ([] : VersionsMap)) ∧
    (load .missing entities = .ok res'' →
      ∀ r' ∈ res''.rows, r'.versions = ([] : VersionsMap)) := by
  refine ⟨?_, ?_, ?_⟩
  · intro h r' hr' r hr hname
    have hseed := load_rows_seeded _ entities res h r' hr'
    rw [hseed, hname]
    exact cacheOf_lookup rows r hr hnd
  · intro h r' hr'
    exact load_rows_seeded _ entities res' h r' hr'
  · intro h r' hr'
    exact load_rows_seeded _ entities res'' h r' hr'

/-- Witness for the C8 theorem: saving the fixture row and re-loading the
fixture catalog restores its versions; a corrupt cache seeds empty. -/
theorem cache_roundtrip_witness :
    load (saveCachedVersions [sampleRow]) [sampleEntity] =
      .ok ⟨["CONSO", "INT", "PRE", "PRO"], [sampleRow]⟩ ∧
    sampleRow.versions = [("INT", "1.0.0")] ∧
    ({ sampleRow with versions := [] } : ComponentRow).versions = ([] : VersionsMap) := by
  refine ⟨rfl, ?_, ?_⟩
  · exact (cache_roundtrip [sampleRow] [sampleEntity]
      ⟨["CONSO", "INT", "PRE", "PRO"], [sampleRow]⟩
      ⟨["CONSO", "INT", "PRE", "PRO"], [{ sampleRow with versions := [] }]⟩
      ⟨["CONSO", "INT", "PRE", "PRO"], [{ sampleRow with versions := [] }]⟩
      (by simp [sampleRow])).1 rfl
      sampleRow (List.mem_singleton.mpr rfl) sampleRow (List.mem_singleton.mpr rfl) rfl
  · exact (cache_roundtrip [sampleRow] [sampleEntity]
      ⟨["CONSO", "INT", "PRE", "PRO"], [sampleRow]⟩
      ⟨["CONSO", "INT", "PRE", "PRO"], [{ sampleRow with versions := [] }]⟩
      ⟨["CONSO", "INT", "PRE", "PRO"], [{ sampleRow with versions := [] }]⟩
      (by simp [sampleRow])).2.1 rfl
      { sampleRow with versions := [] } (List.mem_singleton.mpr rfl)

end DevPortal
